import Mathlib

/-!
Verification of the ITK fuzzy-connectedness segmentation core, the
symmetric-forces demons registration function, and the BSpline transform
test driver, against their natural-language specification.

The fuzzy-connectedness filter ships only its class declaration in this
tree (`Code/Algorithms/itkFuzzyConnectednessImageFilter.h`); the method
bodies live in a `.txx` file that is not part of the tree.  The data
model and the algorithms of that component are therefore modelled from
the specification (sections 3, 4.1, 4.2, 4.3), as flagged on each
definition.  The demons registration function and the BSpline test
driver have their relevant code inline in the tree and are embedded from
the source directly.
-/

namespace ITK

/-! ### Thresholding stage (spec section 4.3) -/

/-- Value of a Binary Output cell classified as part of the object. -/
def OBJECT : Bool := true

/-- Value of a Binary Output cell classified as background. -/
def BACKGROUND : Bool := false

/-- Modelled from the spec: the Thresholding Stage contract
`threshold(scene, t) -> binaryMask` with
`binaryMask[cell] = OBJECT if scene[cell] >= t else BACKGROUND`,
a pure function of the Scene and the Threshold (section 4.3).
The `.txx` implementation of `MakeSegmentObject` is not in the tree. -/
def thresholdScene {n : ℕ} (scene : Fin n → ℕ) (t : ℕ) : Fin n → Bool :=
  fun c => if t ≤ scene c then OBJECT else BACKGROUND

/-- The set of cells classified `OBJECT` by thresholding `scene` at `t`. -/
def objectRegion {n : ℕ} (scene : Fin n → ℕ) (t : ℕ) : Finset (Fin n) :=
  Finset.univ.filter (fun c => thresholdScene scene t c = OBJECT)

/-! ### Affinity model (spec section 4.1)

Intensities and statistic parameters are embedded as rationals (the
source uses `double`).  The Gaussian bump shape `x ↦ exp (-x / 2)` is
transcendental, so the definitions take the kernel as an explicit
function argument `ker`; every theorem below holds for an arbitrary
kernel, in particular for the Gaussian one. -/

/-- Modelled from the spec: a Gaussian-kernel score of the sample `x`
against the statistic pair (`mean`, `var`).  For positive `var` the
score is the kernel applied to the squared normalized deviation; a
variance of zero is treated as an exact-match requirement and the score
collapses to a step function (full score `1` on an exact match, `0`
otherwise), never dividing by the variance (section 4.1 edge case). -/
def gaussScore (ker : ℚ → ℚ) (x mean var : ℚ) : ℚ :=
  if var = 0 then (if x = mean then 1 else 0)
  else ker ((x - mean) ^ 2 / var)

/-- Modelled from the spec: `FuzzyAffinity` as described in section 4.1
and in the class documentation of `itkFuzzyConnectednessImageFilter.h`:
a Gaussian score of the mean of the two input pixels against the object
statistics (`mean`, `var`), combined by the configurable `weight` with a
Gaussian score of the absolute pixel difference against the
neighbor-difference statistics (`diffMean`, `diffVar`). -/
def FuzzyAffinity (ker : ℚ → ℚ) (mean var diffMean diffVar weight : ℚ)
    (f1 f2 : ℚ) : ℚ :=
  weight * gaussScore ker ((f1 + f2) / 2) mean var
    + (1 - weight) * gaussScore ker |f1 - f2| diffMean diffVar

/-! ### Connectedness propagation engine (spec section 4.2)

The Grid is abstracted to its propagation-relevant content: `n` cells
`Fin n`, a neighbor relation `adj`, and the quantized affinity
`aff v w ≤ maxS` of each neighboring pair (the Affinity Model's score
normalized to the Scene's integer range, spec sections 3 and 4.1).
`maxS` is the maximum representable strength (65535 for the source's
`unsigned short` Scene). -/

variable {n : ℕ}

/-- Modelled from the spec: existence of a seed-to-cell path of
strength at least `k` (sections 3 and 4.2 and the glossary): a seed
itself has strength `maxS` (any `k ≤ maxS`), and a path may be extended
across an edge whose affinity is at least `k`. -/
inductive ReachW (adj : Fin n → Fin n → Bool) (aff : Fin n → Fin n → ℕ)
    (seeds : List (Fin n)) (maxS : ℕ) : ℕ → Fin n → Prop
  | seed {c : Fin n} {k : ℕ} : c ∈ seeds → k ≤ maxS →
      ReachW adj aff seeds maxS k c
  | step {v c : Fin n} {k : ℕ} : ReachW adj aff seeds maxS k v →
      adj v c = true → k ≤ aff v c → ReachW adj aff seeds maxS k c

/-- Chain predicate: `ws` lists the successive cells of a walk starting
at `v`, each step crossing a grid-neighbor pair. -/
def IsWalk (adj : Fin n → Fin n → Bool) : Fin n → List (Fin n) → Prop
  | _, [] => True
  | v, w :: ws => adj v w = true ∧ IsWalk adj w ws

/-- Final cell of the walk that starts at `v` and continues through `ws`. -/
def walkEnd : Fin n → List (Fin n) → Fin n
  | v, [] => v
  | _, w :: ws => walkEnd w ws

/-- Modelled from the spec: the strength of a path is the minimum
pairwise affinity along it; the empty path (a seed by itself) has the
maximum representable strength (glossary and section 4.2 step 1). -/
def walkStrength (aff : Fin n → Fin n → ℕ) (maxS : ℕ) :
    Fin n → List (Fin n) → ℕ
  | _, [] => maxS
  | v, w :: ws => min (aff v w) (walkStrength aff maxS w ws)

/-- Existence of a walk from some seed to `c` of strength at least `k`:
the literal reading of the spec's max-min path strength between the seed
set and a cell. -/
def SeedWalkStrength (adj : Fin n → Fin n → Bool) (aff : Fin n → Fin n → ℕ)
    (seeds : List (Fin n)) (maxS : ℕ) (k : ℕ) (c : Fin n) : Prop :=
  ∃ s_ ∈ seeds, ∃ ws, IsWalk adj s_ ws ∧ walkEnd s_ ws = c ∧
    k ≤ walkStrength aff maxS s_ ws

/-- Fixed-point iteration deciding `ReachW`: the start vector marks the
seeds (when `k ≤ maxS`). -/
def reachInit (seeds : List (Fin n)) (maxS k : ℕ) : Fin n → Bool :=
  fun c => decide (c ∈ seeds) && decide (k ≤ maxS)

/-- One round of the reachability iteration: keep every marked cell and
mark every cell adjacent to a marked cell across an edge of affinity at
least `k`. -/
def reachStep (adj : Fin n → Fin n → Bool) (aff : Fin n → Fin n → ℕ)
    (k : ℕ) (s : Fin n → Bool) : Fin n → Bool :=
  fun c => s c ||
    (List.finRange n).any (fun v => s v && adj v c && decide (k ≤ aff v c))

/-- The reachability iteration after `i` rounds. -/
def reachIter (adj : Fin n → Fin n → Bool) (aff : Fin n → Fin n → ℕ)
    (seeds : List (Fin n)) (maxS k i : ℕ) : Fin n → Bool :=
  (reachStep adj aff k)^[i] (reachInit seeds maxS k)

/-- State of the propagation engine (spec section 4.2): the Scene, the
settled marker per cell, and the priority queue of
(cell, candidate-strength) pairs. -/
structure PropState (n : ℕ) where
  scene : Fin n → ℕ
  settled : Fin n → Bool
  queue : List (Fin n × ℕ)

/-- Grid neighbors of `c`, enumerated in the canonical cell order. -/
def nbrs (adj : Fin n → Fin n → Bool) (c : Fin n) : List (Fin n) :=
  (List.finRange n).filter (fun w => adj c w)

/-- Modelled from the spec: one relaxation of section 4.2 step 4 —
for an unsettled neighbor `w` of the cell `c` just settled at strength
`k`, compute `candidate = min(strength, affinity(cell, n))`; if it
improves `Scene[w]`, update the Scene and push `(w, candidate)`. -/
def relax (aff : Fin n → Fin n → ℕ) (c : Fin n) (k : ℕ)
    (st : PropState n) (w : Fin n) : PropState n :=
  if st.settled w then st
  else if st.scene w < min k (aff c w) then
    { scene := Function.update st.scene w (min k (aff c w)),
      settled := st.settled,
      queue := (w, min k (aff c w)) :: st.queue }
  else st

/-- Modelled from the spec: section 4.2 steps 3 and 4 — settle the
popped cell at the popped strength and relax each of its grid
neighbors. -/
def settleAndRelax (adj : Fin n → Fin n → Bool) (aff : Fin n → Fin n → ℕ)
    (c : Fin n) (k : ℕ) (st : PropState n) : PropState n :=
  (nbrs adj c).foldl (relax aff c k)
    { scene := Function.update st.scene c k,
      settled := Function.update st.settled c true,
      queue := st.queue }

/-- A pick function models the max-priority-queue pop, including its
unspecified tie-breaking: on a nonempty queue it returns some entry of
maximal priority. -/
def ValidPick (pick : List (Fin n × ℕ) → Option (Fin n × ℕ)) : Prop :=
  ∀ q : List (Fin n × ℕ),
    (∀ e, pick q = some e → e ∈ q ∧ ∀ e' ∈ q, e'.2 ≤ e.2) ∧
    (q ≠ [] → (pick q).isSome = true)

/-- A concrete valid pick: the first maximal-priority entry. -/
def pickMaxFirst (q : List (Fin n × ℕ)) : Option (Fin n × ℕ) :=
  q.argmax Prod.snd

/-- A concrete valid pick breaking ties the other way: the last
maximal-priority entry. -/
def pickMaxLast (q : List (Fin n × ℕ)) : Option (Fin n × ℕ) :=
  q.reverse.argmax Prod.snd

/-- Modelled from the spec: section 4.2 step 2 — pop a highest-priority
entry; a stale entry (cell already settled at a strength at least the
popped one) is discarded; otherwise the cell is settled and its
neighbors relaxed. -/
def stepPop (pick : List (Fin n × ℕ) → Option (Fin n × ℕ))
    (adj : Fin n → Fin n → Bool) (aff : Fin n → Fin n → ℕ)
    (st : PropState n) : PropState n :=
  match pick st.queue with
  | none => st
  | some e =>
    let st' : PropState n :=
      { scene := st.scene, settled := st.settled, queue := st.queue.erase e }
    if st'.settled e.1 = true ∧ e.2 ≤ st'.scene e.1 then st'
    else settleAndRelax adj aff e.1 e.2 st'

/-- Modelled from the spec: section 4.2 step 2/5 — "repeat while the
queue is non-empty", here with an explicit fuel bound. -/
def runAux (pick : List (Fin n × ℕ) → Option (Fin n × ℕ))
    (adj : Fin n → Fin n → Bool) (aff : Fin n → Fin n → ℕ) :
    ℕ → PropState n → PropState n
  | 0, st => st
  | fuel + 1, st =>
    if st.queue = [] then st
    else runAux pick adj aff fuel (stepPop pick adj aff st)

/-- Modelled from the spec: section 4.2 step 1 — Scene zero everywhere
except the seeds at the maximum strength, every seed enqueued at
priority `maxS`, nothing settled. -/
def initState (seeds : List (Fin n)) (maxS : ℕ) : PropState n :=
  { scene := fun c => if c ∈ seeds then maxS else 0,
    settled := fun _ => false,
    queue := seeds.map (fun s_ => (s_, maxS)) }

/-- Total contribution still obtainable by Scene increases; part of the
termination measure. -/
def sceneDebt (maxS : ℕ) (scene : Fin n → ℕ) : ℕ :=
  ∑ c : Fin n, (maxS - scene c)

/-- Termination measure of the propagation loop: every pop of a
non-empty queue strictly decreases it. -/
def engineMeasure (maxS : ℕ) (st : PropState n) : ℕ :=
  st.queue.length + 2 * sceneDebt maxS st.scene

/-- Fuel that provably outlasts the loop: the initial measure bound. -/
def runFuel (n : ℕ) (seeds : List (Fin n)) (maxS : ℕ) : ℕ :=
  seeds.length + 2 * n * maxS

/-- Modelled from the spec: run() — the whole propagation of section
4.2 from the initial state until the queue empties. -/
def run (pick : List (Fin n × ℕ) → Option (Fin n × ℕ))
    (adj : Fin n → Fin n → Bool) (aff : Fin n → Fin n → ℕ)
    (seeds : List (Fin n)) (maxS : ℕ) : PropState n :=
  runAux pick adj aff (runFuel n seeds maxS) (initState seeds maxS)

/-- Executable reachability test: the iteration, run for `n` rounds,
after which it is provably stable. -/
def ReachableB (adj : Fin n → Fin n → Bool) (aff : Fin n → Fin n → ℕ)
    (seeds : List (Fin n)) (maxS k : ℕ) (c : Fin n) : Bool :=
  reachIter adj aff seeds maxS k n c

/-- The exhaustive max-min search result: the greatest `k ≤ maxS` such
that some seed-to-cell path has strength at least `k`, and `0` when
there is none — the spec's correctness contract for the Scene
(section 3 invariant and section 4.2 step 5). -/
def opt (adj : Fin n → Fin n → Bool) (aff : Fin n → Fin n → ℕ)
    (seeds : List (Fin n)) (maxS : ℕ) (c : Fin n) : ℕ :=
  Nat.findGreatest (fun k => ReachableB adj aff seeds maxS k c = true) maxS

/-- Modelled from the spec: the configuration-error taxonomy of
sections 4.2 and 7 for the two cases named by the spec's failure
semantics. -/
inductive ConfigError
  | zeroCellGrid
  | emptySeedSet
deriving DecidableEq

/-- Modelled from the spec: run() with the section 7 configuration
validation — a grid with zero cells or an empty seed set is detected
before propagation starts and reported as a distinct recoverable error;
only a valid configuration reaches the propagation engine. -/
def runChecked (pick : List (Fin n × ℕ) → Option (Fin n × ℕ))
    (adj : Fin n → Fin n → Bool) (aff : Fin n → Fin n → ℕ)
    (seeds : List (Fin n)) (maxS : ℕ) : Except ConfigError (PropState n) :=
  if n = 0 then Except.error ConfigError.zeroCellGrid
  else if seeds = [] then Except.error ConfigError.emptySeedSet
  else Except.ok (run pick adj aff seeds maxS)

/-! ### Filter-level protocol (spec sections 3, 4.3, 6)

The spec's usage pattern "segment once, threshold repeatedly": the
filter object caches the Scene produced by the last propagation;
`setThreshold` rebuilds the Binary Output from that cache.
`propagationRuns` is the spec's instrumentation counter for propagation
runs (section 8, idempotence property). -/

/-- Observable state of the fuzzy-connectedness filter object. -/
structure FuzzyFilterState (n : ℕ) where
  scene : Fin n → ℕ
  threshold : ℕ
  output : Fin n → Bool
  propagationRuns : ℕ

/-- Modelled from the spec: GenerateData / run() at the filter level —
run the propagation engine, cache the resulting Scene, derive the
Binary Output at the current threshold, and count the propagation. -/
def FuzzyFilterState.generateData (st : FuzzyFilterState n)
    (pick : List (Fin n × ℕ) → Option (Fin n × ℕ))
    (adj : Fin n → Fin n → Bool) (aff : Fin n → Fin n → ℕ)
    (seeds : List (Fin n)) (maxS : ℕ) : FuzzyFilterState n :=
  let sc := (run pick adj aff seeds maxS).scene
  { scene := sc, threshold := st.threshold,
    output := thresholdScene sc st.threshold,
    propagationRuns := st.propagationRuns + 1 }

/-- Modelled from the spec: setThreshold(t) — regenerate the Binary
Output from the already-computed cached Scene without re-running
propagation (sections 4.3 and 6; header usage note lines 82-84). -/
def FuzzyFilterState.setThreshold (st : FuzzyFilterState n) (t : ℕ) :
    FuzzyFilterState n :=
  { scene := st.scene, threshold := t,
    output := thresholdScene st.scene t,
    propagationRuns := st.propagationRuns }

/-! ### Symmetric-forces demons registration function
(`Code/Algorithms/itkSymmetricForcesDemonsRegistrationFunction.h`) -/

/-- Embedding of the numeric fields of `GlobalDataStruct` (header lines
176-182): the per-thread accumulators handed out by
`GetGlobalDataPointer`.  The fixed-image neighborhood iterator member is
pure traversal scratch and carries no numeric state. -/
structure GlobalDataStruct where
  m_SumOfSquaredDifference : ℚ
  m_NumberOfPixelsProcessed : ℕ
  m_SumOfSquaredChange : ℚ

/-- Embedding of the scalar state of
`SymmetricForcesDemonsRegistrationFunction` (private section of the
header). -/
structure SymmetricForcesDemonsRegistrationFunction where
  m_Normalizer : ℚ
  m_TimeStep : ℚ
  m_DenominatorThreshold : ℚ
  m_IntensityDifferenceThreshold : ℚ
  m_Metric : ℚ
  m_SumOfSquaredDifference : ℚ
  m_NumberOfPixelsProcessed : ℕ
  m_RMSChange : ℚ
  m_SumOfSquaredChange : ℚ

/-- Embedding of `ComputeGlobalTimeStep` (header lines 129-131): the
`void * GlobalData` argument is declared `itkNotUsed` and the body is
`return m_TimeStep;`.  A possibly-null pointer is embedded as an
`Option`; `none` models a null pointer. -/
def SymmetricForcesDemonsRegistrationFunction.ComputeGlobalTimeStep
    (self : SymmetricForcesDemonsRegistrationFunction)
    (globalData : Option GlobalDataStruct) : ℚ :=
  self.m_TimeStep

/-! ### BSpline transform test driver
(`Modules/Core/Transform/test/itkBSplineTransformTest3.cxx`) -/

/-- C convention: successful process exit status. -/
def EXIT_SUCCESS : Int := 0

/-- C convention: failing process exit status. -/
def EXIT_FAILURE : Int := 1

/-- Observable outcome of one call of `itkBSplineTransformTest3`.
`helperRuns` counts invocations of `BSplineTransformTest3Helper::RunTest`,
the helper that performs every file read and all resampling computation;
`globalThreadSetting` records the value passed to the global
`MultiThreaderBase` configuration calls, `none` when they are skipped. -/
structure TestMainResult where
  exitCode : Int
  usagePrinted : Bool
  helperRuns : ℕ
  globalThreadSetting : Option Int

/-- Embedding of the control flow of `itkBSplineTransformTest3` (lines
281-321): with fewer than 7 arguments it prints the usage message and
returns `EXIT_FAILURE`; otherwise it parses `argv[6]` with `std::stoi`,
invokes the helper exactly once (configuring the global thread count
first unless the parsed value is 0), and maps the helper's status to the
exit code.  `stoi` and `runTest` are the external collaborators. -/
def itkBSplineTransformTest3 (argv : List String) (stoi : String → Int)
    (runTest : List String → Int) : TestMainResult :=
  if argv.length < 7 then
    { exitCode := EXIT_FAILURE, usagePrinted := true, helperRuns := 0,
      globalThreadSetting := none }
  else
    let numberOfThreads := stoi (argv.getD 6 "")
    let status := runTest argv
    { exitCode := if status ≠ 0 then EXIT_FAILURE else EXIT_SUCCESS,
      usagePrinted := false, helperRuns := 1,
      globalThreadSetting :=
        if numberOfThreads = 0 then none else some numberOfThreads }

/-! ## Proof development for the propagation engine -/

section EngineProofs

variable {n : ℕ} {adj : Fin n → Fin n → Bool} {aff : Fin n → Fin n → ℕ}
variable {seeds : List (Fin n)} {maxS : ℕ}

theorem ReachW.le_maxS {k : ℕ} {c : Fin n}
    (h : ReachW adj aff seeds maxS k c) : k ≤ maxS := by
  induction h with
  | seed _ hk => exact hk
  | step _ _ _ ih => exact ih

theorem ReachW.mono {k j : ℕ} {c : Fin n}
    (h : ReachW adj aff seeds maxS k c) (hj : j ≤ k) :
    ReachW adj aff seeds maxS j c := by
  induction h with
  | seed hc hk => exact ReachW.seed hc (hj.trans hk)
  | step _ hadj hk ih => exact ReachW.step (ih hj) hadj (hj.trans hk)

theorem reachIter_succ (k i : ℕ) :
    reachIter adj aff seeds maxS k (i + 1)
      = reachStep adj aff k (reachIter adj aff seeds maxS k i) :=
  Function.iterate_succ_apply' _ _ _

theorem reachIter_succ_of_true {k i : ℕ} {c : Fin n}
    (h : reachIter adj aff seeds maxS k i c = true) :
    reachIter adj aff seeds maxS k (i + 1) c = true := by
  rw [reachIter_succ]
  simp only [reachStep, Bool.or_eq_true]
  exact Or.inl h

theorem reachIter_mono {k i j : ℕ} {c : Fin n} (hij : i ≤ j)
    (h : reachIter adj aff seeds maxS k i c = true) :
    reachIter adj aff seeds maxS k j c = true := by
  induction hij with
  | refl => exact h
  | step _ ih => exact reachIter_succ_of_true ih

theorem reachIter_sound {k i : ℕ} {c : Fin n}
    (h : reachIter adj aff seeds maxS k i c = true) :
    ReachW adj aff seeds maxS k c := by
  induction i generalizing c with
  | zero =>
    simp only [reachIter, Function.iterate_zero, id_eq, reachInit,
      Bool.and_eq_true, decide_eq_true_eq] at h
    exact ReachW.seed h.1 h.2
  | succ i ih =>
    rw [reachIter_succ] at h
    simp only [reachStep, Bool.or_eq_true, List.any_eq_true,
      Bool.and_eq_true, decide_eq_true_eq] at h
    rcases h with h | ⟨v, _, ⟨hv, hadj⟩, hk⟩
    · exact ih h
    · exact ReachW.step (ih hv) hadj hk

theorem reach_exists_iter {k : ℕ} {c : Fin n}
    (h : ReachW adj aff seeds maxS k c) :
    ∃ i, reachIter adj aff seeds maxS k i c = true := by
  induction h with
  | seed hc hk =>
    refine ⟨0, ?_⟩
    simp only [reachIter, Function.iterate_zero, id_eq, reachInit,
      Bool.and_eq_true, decide_eq_true_eq]
    exact ⟨hc, hk⟩
  | step _ hadj hk ih =>
    obtain ⟨i, hi⟩ := ih
    refine ⟨i + 1, ?_⟩
    rw [reachIter_succ]
    simp only [reachStep, Bool.or_eq_true, List.any_eq_true,
      Bool.and_eq_true, decide_eq_true_eq]
    exact Or.inr ⟨_, List.mem_finRange _, ⟨hi, hadj⟩, hk⟩

theorem reachIter_fix_exists (k : ℕ) :
    ∃ m ≤ n, reachIter adj aff seeds maxS k (m + 1)
      = reachIter adj aff seeds maxS k m := by
  by_contra hcon
  push_neg at hcon
  have hcard : ∀ m ≤ n + 1, m ≤ (Finset.univ.filter
      (fun c => reachIter adj aff seeds maxS k m c = true)).card := by
    intro m hm
    induction m with
    | zero => exact Nat.zero_le _
    | succ i ih =>
      have hi : i ≤ n := by omega
      have hsub : (Finset.univ.filter
          (fun c => reachIter adj aff seeds maxS k i c = true)) ⊆
          (Finset.univ.filter
          (fun c => reachIter adj aff seeds maxS k (i + 1) c = true)) := by
        intro c hc
        simp only [Finset.mem_filter, Finset.mem_univ, true_and] at hc ⊢
        exact reachIter_succ_of_true hc
      have hne : (Finset.univ.filter
          (fun c => reachIter adj aff seeds maxS k i c = true)) ≠
          (Finset.univ.filter
          (fun c => reachIter adj aff seeds maxS k (i + 1) c = true)) := by
        intro heq
        refine hcon i hi (funext fun c => ?_)
        have hmem : c ∈ (Finset.univ.filter
            (fun c => reachIter adj aff seeds maxS k i c = true)) ↔
            c ∈ (Finset.univ.filter
            (fun c => reachIter adj aff seeds maxS k (i + 1) c = true)) := by
          rw [heq]
        simp only [Finset.mem_filter, Finset.mem_univ, true_and] at hmem
        cases hnow : reachIter adj aff seeds maxS k (i + 1) c with
        | false =>
          cases hprev : reachIter adj aff seeds maxS k i c with
          | false => rfl
          | true =>
            exact absurd (reachIter_succ_of_true hprev)
              (by rw [hnow]; exact Bool.false_ne_true)
        | true => exact (hmem.mpr hnow).symm
      have hlt : (Finset.univ.filter
          (fun c => reachIter adj aff seeds maxS k i c = true)).card <
          (Finset.univ.filter
          (fun c => reachIter adj aff seeds maxS k (i + 1) c = true)).card :=
        Finset.card_lt_card (HasSubset.Subset.ssubset_of_ne hsub hne)
      have := ih (by omega)
      omega
  have h1 := hcard (n + 1) le_rfl
  have h2 : (Finset.univ.filter
      (fun c => reachIter adj aff seeds maxS k (n + 1) c = true)).card ≤ n := by
    calc (Finset.univ.filter
        (fun c => reachIter adj aff seeds maxS k (n + 1) c = true)).card
        ≤ (Finset.univ : Finset (Fin n)).card := Finset.card_filter_le _ _
      _ = n := by simp
  omega

theorem reachIter_to_n {k i : ℕ} {c : Fin n}
    (h : reachIter adj aff seeds maxS k i c = true) :
    ReachableB adj aff seeds maxS k c = true := by
  obtain ⟨m, hmn, hfix⟩ := @reachIter_fix_exists n adj aff seeds maxS k
  have hfix' : reachStep adj aff k (reachIter adj aff seeds maxS k m)
      = reachIter adj aff seeds maxS k m := by
    rw [← reachIter_succ]; exact hfix
  have hstable : ∀ j, reachIter adj aff seeds maxS k (j + m)
      = reachIter adj aff seeds maxS k m := by
    intro j
    show (reachStep adj aff k)^[j + m] (reachInit seeds maxS k) = _
    rw [Function.iterate_add_apply]
    exact Function.iterate_fixed hfix' j
  rcases le_total i m with him | hmi
  · exact reachIter_mono hmn (reachIter_mono him h)
  · have h2 : reachIter adj aff seeds maxS k n
        = reachIter adj aff seeds maxS k m := by
      have h3 := hstable (n - m)
      rwa [Nat.sub_add_cancel hmn] at h3
    have h4 : reachIter adj aff seeds maxS k i
        = reachIter adj aff seeds maxS k m := by
      have h5 := hstable (i - m)
      rwa [Nat.sub_add_cancel hmi] at h5
    show reachIter adj aff seeds maxS k n c = true
    rw [h2, ← h4]
    exact h

theorem reachableB_iff {k : ℕ} {c : Fin n} :
    ReachableB adj aff seeds maxS k c = true ↔
      ReachW adj aff seeds maxS k c := by
  constructor
  · exact fun h => reachIter_sound h
  · intro h
    obtain ⟨i, hi⟩ := reach_exists_iter h
    exact reachIter_to_n hi

theorem reach_le_opt {k : ℕ} {c : Fin n}
    (h : ReachW adj aff seeds maxS k c) : k ≤ opt adj aff seeds maxS c :=
  Nat.le_findGreatest h.le_maxS (reachableB_iff.mpr h)

theorem opt_le_maxS (c : Fin n) : opt adj aff seeds maxS c ≤ maxS :=
  Nat.findGreatest_le _

theorem reach_opt {c : Fin n} (h : 0 < opt adj aff seeds maxS c) :
    ReachW adj aff seeds maxS (opt adj aff seeds maxS c) c := by
  have h9 := (Nat.findGreatest_eq_iff.mp
    (rfl : Nat.findGreatest
      (fun k => ReachableB adj aff seeds maxS k c = true) maxS
      = opt adj aff seeds maxS c)).2.1
  exact reachableB_iff.mp (h9 (Nat.pos_iff_ne_zero.mp h))

theorem opt_seed {s_ : Fin n} (hs : s_ ∈ seeds) :
    opt adj aff seeds maxS s_ = maxS :=
  le_antisymm (opt_le_maxS s_) (reach_le_opt (ReachW.seed hs le_rfl))

theorem walkStrength_le_maxS (ws : List (Fin n)) (v : Fin n) :
    walkStrength aff maxS v ws ≤ maxS := by
  induction ws generalizing v with
  | nil => exact le_rfl
  | cons w ws ih => exact le_trans (min_le_right _ _) (ih w)

theorem isWalk_append_last {ws : List (Fin n)} {v c : Fin n}
    (hw : IsWalk adj v ws) (hadj : adj (walkEnd v ws) c = true) :
    IsWalk adj v (ws ++ [c]) := by
  induction ws generalizing v with
  | nil => exact ⟨hadj, trivial⟩
  | cons w ws ih => exact ⟨hw.1, ih hw.2 hadj⟩

theorem walkEnd_append_last (ws : List (Fin n)) (v c : Fin n) :
    walkEnd v (ws ++ [c]) = c := by
  induction ws generalizing v with
  | nil => rfl
  | cons w ws ih => exact ih w

theorem walkStrength_append_last (ws : List (Fin n)) (v c : Fin n) :
    walkStrength aff maxS v (ws ++ [c])
      = min (walkStrength aff maxS v ws) (aff (walkEnd v ws) c) := by
  induction ws generalizing v with
  | nil => exact min_comm _ _
  | cons w ws ih =>
    show min (aff v w) (walkStrength aff maxS w (ws ++ [c])) = _
    rw [ih w, ← min_assoc]
    rfl

theorem reach_of_walk {ws : List (Fin n)} {v : Fin n} {k : ℕ}
    (hv : ReachW adj aff seeds maxS k v) (hw : IsWalk adj v ws)
    (hs : k ≤ walkStrength aff maxS v ws) :
    ReachW adj aff seeds maxS k (walkEnd v ws) := by
  induction ws generalizing v with
  | nil => exact hv
  | cons w ws ih =>
    exact ih (ReachW.step hv hw.1 (hs.trans (min_le_left _ _))) hw.2
      (hs.trans (min_le_right _ _))

theorem reach_iff_walk {k : ℕ} {c : Fin n} :
    ReachW adj aff seeds maxS k c ↔
      SeedWalkStrength adj aff seeds maxS k c := by
  constructor
  · intro h
    induction h with
    | @seed c k hc hk => exact ⟨c, hc, [], trivial, rfl, hk⟩
    | @step v c k hv hadj hk ih =>
      obtain ⟨s_, hs, ws, hw, hend, hstr⟩ := ih
      refine ⟨s_, hs, ws ++ [c],
        isWalk_append_last hw (by rw [hend]; exact hadj),
        walkEnd_append_last ws s_ c, ?_⟩
      rw [walkStrength_append_last, hend]
      exact le_min hstr hk
  · rintro ⟨s_, hs, ws, hw, hend, hstr⟩
    have h1 := reach_of_walk
      (ReachW.seed hs (hstr.trans (walkStrength_le_maxS ws s_))) hw hstr
    rwa [hend] at h1

end EngineProofs

section InvariantProofs

variable {n : ℕ} {adj : Fin n → Fin n → Bool} {aff : Fin n → Fin n → ℕ}
variable {seeds : List (Fin n)} {maxS : ℕ}
variable {pick : List (Fin n × ℕ) → Option (Fin n × ℕ)}

/-- The loop invariant of the propagation engine: every Scene value is
witnessed by a path of that strength, the best known strength of every
unsettled cell sits in the queue, settled cells carry their exact
max-min optimum, and settled cells have relaxed all their neighbors. -/
structure Inv (adj : Fin n → Fin n → Bool) (aff : Fin n → Fin n → ℕ)
    (seeds : List (Fin n)) (maxS : ℕ) (st : PropState n) : Prop where
  scene_le : ∀ c, st.scene c ≤ maxS
  seed_scene : ∀ s_ ∈ seeds, st.scene s_ = maxS
  queue_le : ∀ e ∈ st.queue, e.2 ≤ st.scene e.1
  queue_pos : ∀ e ∈ st.queue, 0 < e.2
  scene_reach : ∀ c, 0 < st.scene c → ReachW adj aff seeds maxS (st.scene c) c
  unsettled_queue : ∀ c, st.settled c = false → 0 < st.scene c →
    (c, st.scene c) ∈ st.queue
  settled_opt : ∀ c, st.settled c = true → st.scene c = opt adj aff seeds maxS c
  relaxed : ∀ p, st.settled p = true → ∀ w, adj p w = true →
    min (st.scene p) (aff p w) ≤ st.scene w

theorem frontier_bound {st : PropState n} (hinv : Inv adj aff seeds maxS st)
    {K : ℕ} (hK : ∀ e ∈ st.queue, e.2 ≤ K) {j : ℕ} {c : Fin n}
    (hj : ReachW adj aff seeds maxS j c) :
    0 < j → st.settled c = false → j ≤ K := by
  induction hj with
  | @seed c k hcs hk =>
    intro hjpos hc
    have hsc := hinv.seed_scene c hcs
    have hq := hinv.unsettled_queue c hc (by omega)
    have h6 : maxS ≤ K := by
      have h7 := hK _ hq
      rwa [hsc] at h7
    omega
  | @step v c k hv hadj hk ih =>
    intro hjpos hc
    cases hsettled : st.settled v with
    | false => exact ih hjpos hsettled
    | true =>
      have hov := hinv.settled_opt v hsettled
      have h1 : k ≤ st.scene v := by rw [hov]; exact reach_le_opt hv
      have h2 := hinv.relaxed v hsettled c hadj
      have h3 : k ≤ st.scene c := le_trans (le_min h1 hk) h2
      have hq := hinv.unsettled_queue c hc (lt_of_lt_of_le hjpos h3)
      exact le_trans h3 (hK _ hq)

theorem final_scene_opt {st : PropState n} (hinv : Inv adj aff seeds maxS st)
    (hempty : st.queue = []) (c : Fin n) :
    st.scene c = opt adj aff seeds maxS c := by
  cases hsettled : st.settled c with
  | true => exact hinv.settled_opt c hsettled
  | false =>
    have hzero : st.scene c = 0 := by
      by_contra hne
      have hpos : 0 < st.scene c := Nat.pos_of_ne_zero hne
      have h1 := hinv.unsettled_queue c hsettled hpos
      rw [hempty] at h1
      exact absurd h1 (List.not_mem_nil _)
    have hopt : opt adj aff seeds maxS c = 0 := by
      by_contra hne
      have hpos : 0 < opt adj aff seeds maxS c := Nat.pos_of_ne_zero hne
      have h2 := frontier_bound hinv (K := 0)
        (by rw [hempty]; intro e he; exact absurd he (List.not_mem_nil _))
        (reach_opt hpos) hpos hsettled
      omega
    rw [hzero, hopt]

theorem sceneDebt_update {maxS : ℕ} {scene : Fin n → ℕ} {w : Fin n}
    {cand : ℕ} (h1 : scene w ≤ cand) (h2 : cand ≤ maxS) :
    sceneDebt maxS (Function.update scene w cand) + (cand - scene w)
      = sceneDebt maxS scene := by
  have ha : sceneDebt maxS (Function.update scene w cand)
      = (maxS - cand) + ∑ x ∈ Finset.univ.erase w, (maxS - scene x) := by
    unfold sceneDebt
    have hfun : ∀ x, maxS - Function.update scene w cand x
        = Function.update (fun x => maxS - scene x) w (maxS - cand) x := by
      intro x
      by_cases hx : x = w
      · subst hx; rw [Function.update_same, Function.update_same]
      · rw [Function.update_noteq hx, Function.update_noteq hx]
    rw [Finset.sum_congr rfl (fun x _ => hfun x),
      Finset.sum_update_of_mem (Finset.mem_univ w),
      Finset.sdiff_singleton_eq_erase]
  have hb : sceneDebt maxS scene
      = (maxS - scene w) + ∑ x ∈ Finset.univ.erase w, (maxS - scene x) :=
    (Finset.add_sum_erase _ _ (Finset.mem_univ w)).symm
  omega

/-- Intermediate invariant during the neighbor-relaxation fold of a
settle step: the cell `c` was just settled at its optimal strength `k`
and has relaxed only part of its neighbor list so far. -/
structure MidInv (adj : Fin n → Fin n → Bool) (aff : Fin n → Fin n → ℕ)
    (seeds : List (Fin n)) (maxS : ℕ) (c : Fin n) (k : ℕ)
    (st : PropState n) : Prop where
  scene_le : ∀ x, st.scene x ≤ maxS
  seed_scene : ∀ s_ ∈ seeds, st.scene s_ = maxS
  queue_le : ∀ e ∈ st.queue, e.2 ≤ st.scene e.1
  queue_pos : ∀ e ∈ st.queue, 0 < e.2
  scene_reach : ∀ x, 0 < st.scene x → ReachW adj aff seeds maxS (st.scene x) x
  unsettled_queue : ∀ x, st.settled x = false → 0 < st.scene x →
    (x, st.scene x) ∈ st.queue
  settled_opt : ∀ x, st.settled x = true →
    st.scene x = opt adj aff seeds maxS x
  relaxed_old : ∀ p, st.settled p = true → p ≠ c → ∀ w, adj p w = true →
    min (st.scene p) (aff p w) ≤ st.scene w
  settled_c : st.settled c = true
  scene_c : st.scene c = k
  pos_k : 0 < k

theorem relax_preserves (haff : ∀ v w, aff v w ≤ maxS)
    {c : Fin n} {k : ℕ} {st : PropState n}
    (hmid : MidInv adj aff seeds maxS c k st) {w : Fin n}
    (hadjw : adj c w = true) :
    MidInv adj aff seeds maxS c k (relax aff c k st w) ∧
    (∀ x, st.scene x ≤ (relax aff c k st w).scene x) ∧
    min k (aff c w) ≤ (relax aff c k st w).scene w ∧
    engineMeasure maxS (relax aff c k st w) ≤ engineMeasure maxS st := by
  have hkle : k ≤ maxS := by
    have := hmid.scene_le c
    rw [hmid.scene_c] at this
    exact this
  have hcandle : min k (aff c w) ≤ maxS := le_trans (min_le_left _ _) hkle
  have hkc : ReachW adj aff seeds maxS k c := by
    have h0 := hmid.scene_reach c (by rw [hmid.scene_c]; exact hmid.pos_k)
    rwa [hmid.scene_c] at h0
  by_cases hsw : st.settled w = true
  · have hrel : relax aff c k st w = st := by simp [relax, hsw]
    rw [hrel]
    refine ⟨hmid, fun x => le_rfl, ?_, le_rfl⟩
    rcases Nat.eq_zero_or_pos (min k (aff c w)) with hz | hpos
    · omega
    · have hm : ReachW adj aff seeds maxS (min k (aff c w)) w :=
        ReachW.step (hkc.mono (min_le_left _ _)) hadjw (min_le_right _ _)
      rw [hmid.settled_opt w hsw]
      exact reach_le_opt hm
  · have hsw' : st.settled w = false := by
      cases h : st.settled w
      · rfl
      · exact absurd h hsw
    have hwc : w ≠ c := by
      intro heq
      rw [heq, hmid.settled_c] at hsw'
      cases hsw'
    by_cases hlt : st.scene w < min k (aff c w)
    · have hrel : relax aff c k st w =
          { scene := Function.update st.scene w (min k (aff c w)),
            settled := st.settled,
            queue := (w, min k (aff c w)) :: st.queue } := by
        simp [relax, hsw', hlt]
      have hcandpos : 0 < min k (aff c w) := by omega
      have hreachw : ReachW adj aff seeds maxS (min k (aff c w)) w :=
        ReachW.step (hkc.mono (min_le_left _ _)) hadjw (min_le_right _ _)
      rw [hrel]
      refine ⟨⟨?_, ?_, ?_, ?_, ?_, ?_, ?_, ?_, ?_, ?_, hmid.pos_k⟩,
        ?_, ?_, ?_⟩
      · intro x
        by_cases hx : x = w
        · subst hx; simp only [Function.update_same]; exact hcandle
        · simp only [Function.update_noteq hx]; exact hmid.scene_le x
      · intro s_ hs
        by_cases hx : s_ = w
        · subst hx
          simp only [Function.update_same]
          have h8 := hmid.seed_scene _ hs
          omega
        · simp only [Function.update_noteq hx]; exact hmid.seed_scene _ hs
      · intro e he
        rcases List.mem_cons.mp he with heq | hmem
        · subst heq; simp only [Function.update_same]; exact le_rfl
        · have h9 := hmid.queue_le e hmem
          by_cases hx : e.1 = w
          · rw [hx] at h9 ⊢
            simp only [Function.update_same]
            omega
          · simp only [Function.update_noteq hx]; exact h9
      · intro e he
        rcases List.mem_cons.mp he with heq | hmem
        · subst heq; exact hcandpos
        · exact hmid.queue_pos e hmem
      · intro x hx
        by_cases hxw : x = w
        · subst hxw
          simp only [Function.update_same] at hx ⊢
          exact hreachw
        · simp only [Function.update_noteq hxw] at hx ⊢
          exact hmid.scene_reach x hx
      · intro x hxs hx
        by_cases hxw : x = w
        · subst hxw
          simp only [Function.update_same]
          exact List.mem_cons_self _ _
        · simp only [Function.update_noteq hxw] at hx ⊢
          exact List.mem_cons_of_mem _ (hmid.unsettled_queue x hxs hx)
      · intro x hxs
        simp only at hxs
        have hxw : x ≠ w := by
          intro heq
          rw [heq, hsw'] at hxs
          cases hxs
        simp only [Function.update_noteq hxw]
        exact hmid.settled_opt x hxs
      · intro p hps hpc w' hadj'
        simp only at hps
        have hpw : p ≠ w := by
          intro heq
          rw [heq, hsw'] at hps
          cases hps
        simp only [Function.update_noteq hpw]
        by_cases hw' : w' = w
        · subst hw'
          simp only [Function.update_same]
          exact le_trans (hmid.relaxed_old p hps hpc w' hadj') (le_of_lt hlt)
        · simp only [Function.update_noteq hw']
          exact hmid.relaxed_old p hps hpc w' hadj'
      · exact hmid.settled_c
      · simp only [Function.update_noteq (Ne.symm hwc)]; exact hmid.scene_c
      · intro x
        by_cases hx : x = w
        · subst hx; simp only [Function.update_same]; exact le_of_lt hlt
        · simp only [Function.update_noteq hx]; exact le_rfl
      · simp only [Function.update_same]; exact le_rfl
      · have hsd := sceneDebt_update (le_of_lt hlt) hcandle
        simp only [engineMeasure, List.length_cons]
        omega
    · have hrel : relax aff c k st w = st := by simp [relax, hsw', hlt]
      rw [hrel]
      exact ⟨hmid, fun x => le_rfl, Nat.le_of_not_lt hlt, le_rfl⟩

theorem relax_foldl (haff : ∀ v w, aff v w ≤ maxS) {c : Fin n} {k : ℕ} :
    ∀ (ws : List (Fin n)) (st : PropState n),
    MidInv adj aff seeds maxS c k st →
    (∀ w ∈ ws, adj c w = true) →
    (∀ w, adj c w = true → w ∉ ws → min k (aff c w) ≤ st.scene w) →
    MidInv adj aff seeds maxS c k (ws.foldl (relax aff c k) st) ∧
    (∀ w, adj c w = true →
      min k (aff c w) ≤ (ws.foldl (relax aff c k) st).scene w) ∧
    engineMeasure maxS (ws.foldl (relax aff c k) st)
      ≤ engineMeasure maxS st := by
  intro ws
  induction ws with
  | nil =>
    intro st hmid hws hdone
    exact ⟨hmid, fun w hw => hdone w hw (List.not_mem_nil w), le_rfl⟩
  | cons w ws ih =>
    intro st hmid hws hdone
    obtain ⟨hmid1, hmono1, hwfact1, hmeas1⟩ :=
      relax_preserves haff hmid (hws w (List.mem_cons_self w ws))
    have hdone1 : ∀ w', adj c w' = true → w' ∉ ws →
        min k (aff c w') ≤ (relax aff c k st w).scene w' := by
      intro w' hadj' hnot
      by_cases hww : w' = w
      · subst hww; exact hwfact1
      · have hnot2 : w' ∉ w :: ws := by
          intro hmem
          rcases List.mem_cons.mp hmem with h | h
          · exact hww h
          · exact hnot h
        exact le_trans (hdone w' hadj' hnot2) (hmono1 w')
    obtain ⟨hm2, hall2, hmeas2⟩ := ih (relax aff c k st w) hmid1
      (fun w' hw' => hws w' (List.mem_cons_of_mem w hw')) hdone1
    exact ⟨hm2, hall2, le_trans hmeas2 hmeas1⟩

theorem stepPop_step (hpick : ValidPick pick) (haff : ∀ v w, aff v w ≤ maxS)
    {st : PropState n} (hinv : Inv adj aff seeds maxS st)
    (hne : st.queue ≠ []) :
    Inv adj aff seeds maxS (stepPop pick adj aff st) ∧
    engineMeasure maxS (stepPop pick adj aff st) < engineMeasure maxS st := by
  have hsome := (hpick st.queue).2 hne
  cases hp : pick st.queue with
  | none => rw [hp] at hsome; cases hsome
  | some e =>
    obtain ⟨hmem, hmaxq⟩ := (hpick st.queue).1 e hp
    have hke : e.2 ≤ st.scene e.1 := hinv.queue_le e hmem
    have hkpos : 0 < e.2 := hinv.queue_pos e hmem
    have hlen : (st.queue.erase e).length = st.queue.length - 1 :=
      List.length_erase_of_mem hmem
    have hlenpos : 0 < st.queue.length := List.length_pos.mpr hne
    have hstep : stepPop pick adj aff st =
        if st.settled e.1 = true ∧ e.2 ≤ st.scene e.1 then
          ({ scene := st.scene, settled := st.settled,
             queue := st.queue.erase e } : PropState n)
        else settleAndRelax adj aff e.1 e.2
          { scene := st.scene, settled := st.settled,
            queue := st.queue.erase e } := by
      unfold stepPop
      rw [hp]
    by_cases hsettled : st.settled e.1 = true
    · have hcond : st.settled e.1 = true ∧ e.2 ≤ st.scene e.1 :=
        ⟨hsettled, hke⟩
      rw [hstep, if_pos hcond]
      constructor
      · exact
          { scene_le := hinv.scene_le
            seed_scene := hinv.seed_scene
            queue_le := fun e' he' =>
              hinv.queue_le e' (List.mem_of_mem_erase he')
            queue_pos := fun e' he' =>
              hinv.queue_pos e' (List.mem_of_mem_erase he')
            scene_reach := hinv.scene_reach
            unsettled_queue := by
              intro x hxs hx
              have hxe : x ≠ e.1 := by
                intro heq
                rw [heq, hsettled] at hxs
                cases hxs
              have hne2 : (x, st.scene x) ≠ e := by
                intro heq
                exact hxe (by rw [← heq])
              exact (List.mem_erase_of_ne hne2).mpr
                (hinv.unsettled_queue x hxs hx)
            settled_opt := hinv.settled_opt
            relaxed := hinv.relaxed }
      · simp only [engineMeasure, hlen]
        omega
    · have hcond : ¬(st.settled e.1 = true ∧ e.2 ≤ st.scene e.1) :=
        fun hcc => hsettled hcc.1
      rw [hstep, if_neg hcond]
      have hsettledf : st.settled e.1 = false := by
        cases h : st.settled e.1
        · rfl
        · exact absurd h hsettled
      have hscpos : 0 < st.scene e.1 := lt_of_lt_of_le hkpos hke
      have hoptle : opt adj aff seeds maxS e.1 ≤ e.2 := by
        rcases Nat.eq_zero_or_pos (opt adj aff seeds maxS e.1) with hz | hpos
        · omega
        · exact frontier_bound hinv hmaxq (reach_opt hpos) hpos hsettledf
      have hscle : st.scene e.1 ≤ opt adj aff seeds maxS e.1 :=
        reach_le_opt (hinv.scene_reach e.1 hscpos)
      have hkeq : st.scene e.1 = e.2 :=
        le_antisymm (le_trans hscle hoptle) hke
      have hopteq : opt adj aff seeds maxS e.1 = e.2 :=
        le_antisymm hoptle (le_trans hke hscle)
      have hupd : Function.update st.scene e.1 e.2 = st.scene := by
        rw [← hkeq]
        exact Function.update_eq_self e.1 st.scene
      have hsar : settleAndRelax adj aff e.1 e.2
          ({ scene := st.scene, settled := st.settled,
             queue := st.queue.erase e } : PropState n)
          = (nbrs adj e.1).foldl (relax aff e.1 e.2)
            ({ scene := st.scene,
               settled := Function.update st.settled e.1 true,
               queue := st.queue.erase e } : PropState n) := by
        unfold settleAndRelax
        rw [hupd]
      rw [hsar]
      have hmid0 : MidInv adj aff seeds maxS e.1 e.2
          ({ scene := st.scene,
             settled := Function.update st.settled e.1 true,
             queue := st.queue.erase e } : PropState n) :=
        { scene_le := hinv.scene_le
          seed_scene := hinv.seed_scene
          queue_le := fun e' he' =>
            hinv.queue_le e' (List.mem_of_mem_erase he')
          queue_pos := fun e' he' =>
            hinv.queue_pos e' (List.mem_of_mem_erase he')
          scene_reach := hinv.scene_reach
          unsettled_queue := by
            intro x hxs hx
            simp only at hxs
            have hxe : x ≠ e.1 := by
              intro heq
              rw [heq, Function.update_same] at hxs
              cases hxs
            rw [Function.update_noteq hxe] at hxs
            have hne2 : (x, st.scene x) ≠ e := by
              intro heq
              exact hxe (by rw [← heq])
            exact (List.mem_erase_of_ne hne2).mpr
              (hinv.unsettled_queue x hxs hx)
          settled_opt := by
            intro x hxs
            simp only at hxs
            by_cases hxe : x = e.1
            · subst hxe
              rw [hkeq, hopteq]
            · rw [Function.update_noteq hxe] at hxs
              exact hinv.settled_opt x hxs
          relaxed_old := by
            intro p hps hpc w hadj'
            simp only at hps
            rw [Function.update_noteq hpc] at hps
            exact hinv.relaxed p hps w hadj'
          settled_c := Function.update_same _ _ _
          scene_c := hkeq
          pos_k := hkpos }
      have hws : ∀ w ∈ nbrs adj e.1, adj e.1 w = true := by
        intro w hw
        exact (List.mem_filter.mp hw).2
      have hdone : ∀ w, adj e.1 w = true → w ∉ nbrs adj e.1 →
          min e.2 (aff e.1 w) ≤ st.scene w := by
        intro w hadj' hnot
        exact absurd (List.mem_filter.mpr ⟨List.mem_finRange w, hadj'⟩) hnot
      obtain ⟨hmfin, hallrel, hmeasfin⟩ := relax_foldl haff (nbrs adj e.1) _
        hmid0 hws hdone
      constructor
      · exact
          { scene_le := hmfin.scene_le
            seed_scene := hmfin.seed_scene
            queue_le := hmfin.queue_le
            queue_pos := hmfin.queue_pos
            scene_reach := hmfin.scene_reach
            unsettled_queue := hmfin.unsettled_queue
            settled_opt := hmfin.settled_opt
            relaxed := by
              intro p hps w hadj'
              by_cases hpe : p = e.1
              · subst hpe
                rw [hmfin.scene_c]
                exact hallrel w hadj'
              · exact hmfin.relaxed_old p hps hpe w hadj' }
      · have hm0 : engineMeasure maxS
            ({ scene := st.scene,
               settled := Function.update st.settled e.1 true,
               queue := st.queue.erase e } : PropState n)
            = (st.queue.erase e).length + 2 * sceneDebt maxS st.scene := rfl
        have hmst : engineMeasure maxS st
            = st.queue.length + 2 * sceneDebt maxS st.scene := rfl
        rw [hm0, hlen] at hmeasfin
        omega

theorem runAux_correct (hpick : ValidPick pick)
    (haff : ∀ v w, aff v w ≤ maxS) :
    ∀ (fuel : ℕ) (st : PropState n), Inv adj aff seeds maxS st →
    engineMeasure maxS st ≤ fuel →
    Inv adj aff seeds maxS (runAux pick adj aff fuel st) ∧
    (runAux pick adj aff fuel st).queue = [] := by
  intro fuel
  induction fuel with
  | zero =>
    intro st hinv hm
    have hq : st.queue = [] := by
      have h1 : st.queue.length = 0 := by
        unfold engineMeasure at hm
        omega
      exact List.eq_nil_of_length_eq_zero h1
    exact ⟨hinv, hq⟩
  | succ fuel ih =>
    intro st hinv hm
    by_cases hq : st.queue = []
    · simp only [runAux]
      rw [if_pos hq]
      exact ⟨hinv, hq⟩
    · obtain ⟨hinv', hlt⟩ := stepPop_step hpick haff hinv hq
      obtain ⟨hi, hqf⟩ := ih (stepPop pick adj aff st) hinv' (by omega)
      simp only [runAux]
      rw [if_neg hq]
      exact ⟨hi, hqf⟩

theorem initState_inv (hmax : 0 < maxS) :
    Inv adj aff seeds maxS (initState (n := n) seeds maxS) where
  scene_le := by
    intro c
    simp only [initState]
    split
    · exact le_rfl
    · exact Nat.zero_le _
  seed_scene := by
    intro s_ hs
    simp only [initState, if_pos hs]
  queue_le := by
    intro e he
    simp only [initState, List.mem_map] at he
    obtain ⟨s_, hs, rfl⟩ := he
    simp only [initState, if_pos hs]
    exact le_rfl
  queue_pos := by
    intro e he
    simp only [initState, List.mem_map] at he
    obtain ⟨s_, hs, rfl⟩ := he
    exact hmax
  scene_reach := by
    intro c hc
    simp only [initState] at hc ⊢
    by_cases hs : c ∈ seeds
    · rw [if_pos hs]
      exact ReachW.seed hs le_rfl
    · rw [if_neg hs] at hc
      omega
  unsettled_queue := by
    intro c _ hc
    simp only [initState] at hc ⊢
    by_cases hs : c ∈ seeds
    · rw [if_pos hs]
      exact List.mem_map.mpr ⟨c, hs, rfl⟩
    · rw [if_neg hs] at hc
      omega
  settled_opt := by
    intro c h
    simp only [initState] at h
    cases h
  relaxed := by
    intro p h
    simp only [initState] at h
    cases h

theorem initState_measure :
    engineMeasure maxS (initState (n := n) seeds maxS)
      ≤ runFuel n seeds maxS := by
  unfold engineMeasure runFuel initState sceneDebt
  simp only [List.length_map]
  have hsum : ∑ c : Fin n, (maxS - if c ∈ seeds then maxS else 0)
      ≤ n * maxS := by
    calc ∑ c : Fin n, (maxS - if c ∈ seeds then maxS else 0)
        ≤ ∑ _c : Fin n, maxS :=
          Finset.sum_le_sum (fun c _ => Nat.sub_le _ _)
      _ = n * maxS := by
          rw [Finset.sum_const, Finset.card_univ, Fintype.card_fin,
            smul_eq_mul]
  have h2 : 2 * n * maxS = 2 * (n * maxS) := by ring
  omega

theorem run_scene_opt (hpick : ValidPick pick)
    (haff : ∀ v w, aff v w ≤ maxS) (hmax : 0 < maxS) (c : Fin n) :
    (run pick adj aff seeds maxS).scene c = opt adj aff seeds maxS c := by
  obtain ⟨hinv, hq⟩ := runAux_correct hpick haff (runFuel n seeds maxS)
    (initState seeds maxS) (initState_inv hmax) initState_measure
  exact final_scene_opt hinv hq c

theorem validPick_pickMaxFirst : ValidPick (pickMaxFirst (n := n)) := by
  intro q
  constructor
  · intro e he
    refine ⟨List.argmax_mem (Option.mem_def.mpr he), ?_⟩
    intro e' he'
    exact List.le_of_mem_argmax he' (Option.mem_def.mpr he)
  · intro hq
    cases hp : q.argmax Prod.snd with
    | none => exact absurd (List.argmax_eq_none.mp hp) hq
    | some e =>
      show (q.argmax Prod.snd).isSome = true
      rw [hp]
      rfl

theorem validPick_pickMaxLast : ValidPick (pickMaxLast (n := n)) := by
  intro q
  constructor
  · intro e he
    refine ⟨?_, ?_⟩
    · exact List.mem_reverse.mp (List.argmax_mem (Option.mem_def.mpr he))
    · intro e' he'
      exact List.le_of_mem_argmax (List.mem_reverse.mpr he')
        (Option.mem_def.mpr he)
  · intro hq
    have hrev : q.reverse ≠ [] := by
      intro h
      exact hq (List.reverse_eq_nil_iff.mp h)
    cases hp : q.reverse.argmax Prod.snd with
    | none => exact absurd (List.argmax_eq_none.mp hp) hrev
    | some e =>
      show (q.reverse.argmax Prod.snd).isSome = true
      rw [hp]
      rfl

end InvariantProofs

/-! ## Concrete instances used by the witnesses -/

/-- Two-cell grid adjacency: the two cells are mutual neighbors. -/
def adj2 : Fin 2 → Fin 2 → Bool := fun i j => decide (i ≠ j)

/-- Constant affinity 3 on the two-cell grid. -/
def aff2 : Fin 2 → Fin 2 → ℕ := fun _ _ => 3

/-! ## Claim theorems -/

/-- C1: after `run()` completes, `Scene[seed]` equals the maximum
representable strength for every seed; every cell's Scene equals the
result `opt` of the exhaustive max-min path search; a positive strength
`k` is attained at `c` exactly when some seed-to-cell walk has min-affinity
strength at least `k`; and a cell with no positive-strength walk from any
seed retains Scene = 0.  The theorem holds for every valid pop function
`pick`, i.e. regardless of exploration order. -/
theorem C1_run_scene_matches_exhaustive_maxmin {n : ℕ}
    {adj : Fin n → Fin n → Bool} {aff : Fin n → Fin n → ℕ}
    {seeds : List (Fin n)} {maxS : ℕ}
    {pick : List (Fin n × ℕ) → Option (Fin n × ℕ)}
    (hpick : ValidPick pick) (haff : ∀ v w, aff v w ≤ maxS)
    (hmax : 0 < maxS) :
    (∀ s_ ∈ seeds, (run pick adj aff seeds maxS).scene s_ = maxS) ∧
    (∀ c, (run pick adj aff seeds maxS).scene c
      = opt adj aff seeds maxS c) ∧
    (∀ c k, 0 < k →
      (k ≤ (run pick adj aff seeds maxS).scene c ↔
        SeedWalkStrength adj aff seeds maxS k c)) ∧
    (∀ c, (∀ k, 0 < k → ¬ SeedWalkStrength adj aff seeds maxS k c) →
      (run pick adj aff seeds maxS).scene c = 0) := by
  have hco := fun c =>
    @run_scene_opt n adj aff seeds maxS pick hpick haff hmax c
  refine ⟨?_, hco, ?_, ?_⟩
  · intro s_ hs
    rw [hco s_, opt_seed hs]
  · intro c k hk
    rw [hco c]
    constructor
    · intro hle
      have hpos : 0 < opt adj aff seeds maxS c := lt_of_lt_of_le hk hle
      exact reach_iff_walk.mp ((reach_opt hpos).mono hle)
    · intro hw
      exact reach_le_opt (reach_iff_walk.mpr hw)
  · intro c hnone
    rw [hco c]
    by_contra hne
    have hpos : 0 < opt adj aff seeds maxS c := Nat.pos_of_ne_zero hne
    exact hnone _ hpos (reach_iff_walk.mp (reach_opt hpos))

/-- Witness for C1: the two-cell grid with one seed, constant
affinity 3, maximum strength 4, first-maximal pop order. -/
theorem C1_run_scene_matches_exhaustive_maxmin_witness :
    ValidPick (pickMaxFirst (n := 2)) ∧ (∀ v w : Fin 2, aff2 v w ≤ 4) ∧
    0 < 4 ∧
    (∀ c, (run pickMaxFirst adj2 aff2 [0] 4).scene c
      = opt adj2 aff2 [0] 4 c) :=
  ⟨validPick_pickMaxFirst, by decide, by decide,
    (C1_run_scene_matches_exhaustive_maxmin validPick_pickMaxFirst
      (by decide) (by decide)).2.1⟩

/-- C2: after a propagation run, `setThreshold t` regenerates the
Binary Output from the already-computed cached Scene, does not run
propagation again (the propagation counter is unchanged), calling it
twice with the same `t` yields an identical Binary Output both times,
and the Scene itself is left unchanged by thresholding. -/
theorem C2_setThreshold_reuses_cached_scene {n : ℕ}
    (st0 : FuzzyFilterState n)
    (pick : List (Fin n × ℕ) → Option (Fin n × ℕ))
    (adj : Fin n → Fin n → Bool) (aff : Fin n → Fin n → ℕ)
    (seeds : List (Fin n)) (maxS : ℕ) (t : ℕ) :
    ((st0.generateData pick adj aff seeds maxS).setThreshold t).output
        = thresholdScene (run pick adj aff seeds maxS).scene t ∧
    (((st0.generateData pick adj aff seeds maxS).setThreshold
        t).setThreshold t).output
        = ((st0.generateData pick adj aff seeds maxS).setThreshold
        t).output ∧
    ((st0.generateData pick adj aff seeds maxS).setThreshold
        t).propagationRuns
        = (st0.generateData pick adj aff seeds maxS).propagationRuns ∧
    (((st0.generateData pick adj aff seeds maxS).setThreshold
        t).setThreshold t).propagationRuns
        = (st0.generateData pick adj aff seeds maxS).propagationRuns ∧
    ((st0.generateData pick adj aff seeds maxS).setThreshold t).scene
        = (st0.generateData pick adj aff seeds maxS).scene ∧
    (((st0.generateData pick adj aff seeds maxS).setThreshold
        t).setThreshold t).scene
        = (st0.generateData pick adj aff seeds maxS).scene :=
  ⟨rfl, rfl, rfl, rfl, rfl, rfl⟩

/-- C3: the Thresholding Stage is the pure function
`binaryMask[cell] = OBJECT if scene[cell] >= t else BACKGROUND` of the
Scene and the threshold; the filter's output after `setThreshold`
depends on nothing but the cached Scene and `t`. -/
theorem C3_threshold_pure {n : ℕ} :
    (∀ (scene : Fin n → ℕ) (t : ℕ) (c : Fin n),
      thresholdScene scene t c
        = if t ≤ scene c then OBJECT else BACKGROUND) ∧
    (∀ (st : FuzzyFilterState n) (t : ℕ),
      (st.setThreshold t).output = thresholdScene st.scene t) ∧
    (∀ (st1 st2 : FuzzyFilterState n) (t : ℕ), st1.scene = st2.scene →
      (st1.setThreshold t).output = (st2.setThreshold t).output) := by
  refine ⟨fun scene t c => rfl, fun st t => rfl, ?_⟩
  intro st1 st2 t h
  show thresholdScene st1.scene t = thresholdScene st2.scene t
  rw [h]

/-- Witness for C3: two filter states differing in every cached field
except the Scene produce the same Binary Output. -/
theorem C3_threshold_pure_witness :
    ((⟨fun _ => 5, 0, fun _ => false, 0⟩ : FuzzyFilterState 1).scene
      = (⟨fun _ => 5, 9, fun _ => true, 7⟩ : FuzzyFilterState 1).scene) ∧
    ((⟨fun _ => 5, 0, fun _ => false, 0⟩ :
        FuzzyFilterState 1).setThreshold 2).output
      = ((⟨fun _ => 5, 9, fun _ => true, 7⟩ :
        FuzzyFilterState 1).setThreshold 2).output :=
  ⟨rfl, C3_threshold_pure.2.2 _ _ 2 rfl⟩

/-- C4: the affinity function is symmetric in its two pixel-intensity
arguments, for every kernel and every parameter setting. -/
theorem C4_affinity_symmetric (ker : ℚ → ℚ)
    (mean var diffMean diffVar weight f1 f2 : ℚ) :
    FuzzyAffinity ker mean var diffMean diffVar weight f1 f2
      = FuzzyAffinity ker mean var diffMean diffVar weight f2 f1 := by
  unfold FuzzyAffinity
  rw [add_comm f2 f1, abs_sub_comm f2 f1]

/-- C5: a zero variance parameter never divides by the variance and
raises no fault: the corresponding Gaussian term collapses to a step
function giving full score to an exact match and zero otherwise, and
when both variances are zero the affinity no longer depends on the
kernel at all. -/
theorem C5_zero_variance_is_step (ker ker2 : ℚ → ℚ)
    (mean var diffMean diffVar weight f1 f2 : ℚ) :
    (gaussScore ker ((f1 + f2) / 2) mean 0
      = if (f1 + f2) / 2 = mean then 1 else 0) ∧
    (gaussScore ker |f1 - f2| diffMean 0
      = if |f1 - f2| = diffMean then 1 else 0) ∧
    (FuzzyAffinity ker mean 0 diffMean diffVar weight f1 f2
      = weight * (if (f1 + f2) / 2 = mean then 1 else 0)
        + (1 - weight) * gaussScore ker |f1 - f2| diffMean diffVar) ∧
    (FuzzyAffinity ker mean var diffMean 0 weight f1 f2
      = weight * gaussScore ker ((f1 + f2) / 2) mean var
        + (1 - weight) * (if |f1 - f2| = diffMean then 1 else 0)) ∧
    (FuzzyAffinity ker mean 0 diffMean 0 weight f1 f2
      = FuzzyAffinity ker2 mean 0 diffMean 0 weight f1 f2) := by
  refine ⟨if_pos rfl, if_pos rfl, ?_, ?_, ?_⟩ <;>
    simp [FuzzyAffinity, gaussScore]

/-- C6: a zero-cell grid and an empty seed set are each detected before
propagation starts (the reported error does not depend on any
propagation input) and reported as distinct recoverable configuration
errors; neither case returns a Scene. -/
theorem C6_config_errors_detected :
    (∀ (pick : List (Fin 0 × ℕ) → Option (Fin 0 × ℕ))
       (adj : Fin 0 → Fin 0 → Bool) (aff : Fin 0 → Fin 0 → ℕ)
       (seeds : List (Fin 0)) (maxS : ℕ),
       runChecked pick adj aff seeds maxS
         = Except.error ConfigError.zeroCellGrid) ∧
    (∀ {n : ℕ}, 0 < n →
      ∀ (pick : List (Fin n × ℕ) → Option (Fin n × ℕ))
        (adj : Fin n → Fin n → Bool) (aff : Fin n → Fin n → ℕ)
        (maxS : ℕ),
        runChecked pick adj aff ([] : List (Fin n)) maxS
          = Except.error ConfigError.emptySeedSet) ∧
    ConfigError.zeroCellGrid ≠ ConfigError.emptySeedSet := by
  refine ⟨?_, ?_, by decide⟩
  · intro pick adj aff seeds maxS
    simp [runChecked]
  · intro n hn pick adj aff maxS
    unfold runChecked
    rw [if_neg (by omega), if_pos rfl]

/-- Witness for C6: the checked run on the two-cell grid with no seeds,
and on the zero-cell grid. -/
theorem C6_config_errors_detected_witness :
    0 < 2 ∧
    runChecked (n := 2) pickMaxFirst adj2 aff2 [] 4
      = Except.error ConfigError.emptySeedSet ∧
    runChecked (n := 0) pickMaxFirst (fun _ _ => false) (fun _ _ => 0) [] 4
      = Except.error ConfigError.zeroCellGrid :=
  ⟨by decide,
    C6_config_errors_detected.2.1 (by decide) pickMaxFirst adj2 aff2 4,
    C6_config_errors_detected.1 pickMaxFirst _ _ [] 4⟩

/-- C7: thresholding is antitone in the threshold: for `t1 < t2` the
object region under `t2` is a subset of the object region under `t1`. -/
theorem C7_threshold_antitone {n : ℕ} (scene : Fin n → ℕ) {t1 t2 : ℕ}
    (h : t1 < t2) :
    objectRegion scene t2 ⊆ objectRegion scene t1 := by
  intro c hc
  simp only [objectRegion, Finset.mem_filter, Finset.mem_univ, true_and,
    thresholdScene, OBJECT, BACKGROUND] at hc ⊢
  have h2 : t2 ≤ scene c := by
    by_contra hno
    rw [if_neg hno] at hc
    cases hc
  rw [if_pos (le_trans (le_of_lt h) h2)]

/-- Witness for C7: a one-cell scene of strength 2, thresholds 1 < 3. -/
theorem C7_threshold_antitone_witness :
    1 < 3 ∧ objectRegion (fun _ : Fin 1 => 2) 3
      ⊆ objectRegion (fun _ : Fin 1 => 2) 1 :=
  ⟨by decide, C7_threshold_antitone _ (by decide)⟩

/-- C8: the final Scene is independent of queue tie-breaking: any two
valid pop orders yield identical Scene values at every cell. -/
theorem C8_run_scene_pick_independent {n : ℕ}
    {adj : Fin n → Fin n → Bool} {aff : Fin n → Fin n → ℕ}
    {seeds : List (Fin n)} {maxS : ℕ}
    {pick1 pick2 : List (Fin n × ℕ) → Option (Fin n × ℕ)}
    (hp1 : ValidPick pick1) (hp2 : ValidPick pick2)
    (haff : ∀ v w, aff v w ≤ maxS) (hmax : 0 < maxS) :
    ∀ c, (run pick1 adj aff seeds maxS).scene c
      = (run pick2 adj aff seeds maxS).scene c := by
  intro c
  rw [run_scene_opt hp1 haff hmax c, run_scene_opt hp2 haff hmax c]

/-- Witness for C8: first-maximal versus last-maximal tie-breaking on
the two-cell grid. -/
theorem C8_run_scene_pick_independent_witness :
    ValidPick (pickMaxFirst (n := 2)) ∧ ValidPick (pickMaxLast (n := 2)) ∧
    (∀ v w : Fin 2, aff2 v w ≤ 4) ∧ 0 < 4 ∧
    (∀ c, (run pickMaxFirst adj2 aff2 [0] 4).scene c
      = (run pickMaxLast adj2 aff2 [0] 4).scene c) :=
  ⟨validPick_pickMaxFirst, validPick_pickMaxLast, by decide, by decide,
    C8_run_scene_pick_independent validPick_pickMaxFirst
      validPick_pickMaxLast (by decide) (by decide)⟩

/-- C9: `ComputeGlobalTimeStep` ignores its GlobalData argument
entirely: for every argument, including a null pointer, it returns the
fixed member time step `m_TimeStep`. -/
theorem C9_computeGlobalTimeStep_ignores_globalData
    (self : SymmetricForcesDemonsRegistrationFunction) :
    (∀ g, self.ComputeGlobalTimeStep g = self.m_TimeStep) ∧
    self.ComputeGlobalTimeStep none = self.m_TimeStep ∧
    (∀ g1 g2, self.ComputeGlobalTimeStep g1
      = self.ComputeGlobalTimeStep g2) :=
  ⟨fun _ => rfl, rfl, fun _ _ => rfl⟩

/-- C10: with fewer than 7 command-line arguments (program name plus
six), `itkBSplineTransformTest3` returns EXIT_FAILURE after printing
the usage message, never invokes the helper that reads the input files
and performs the computation, and configures no global thread count. -/
theorem C10_argc_guard (argv : List String) (stoi : String → Int)
    (runTest : List String → Int) (h : argv.length < 7) :
    itkBSplineTransformTest3 argv stoi runTest
      = { exitCode := EXIT_FAILURE, usagePrinted := true, helperRuns := 0,
          globalThreadSetting := none } := by
  unfold itkBSplineTransformTest3
  rw [if_pos h]

/-- Witness for C10: invocation with the program name alone. -/
theorem C10_argc_guard_witness :
    (["itkBSplineTransformTest3"] : List String).length < 7 ∧
    itkBSplineTransformTest3 ["itkBSplineTransformTest3"]
        (fun _ => 0) (fun _ => 0)
      = { exitCode := EXIT_FAILURE, usagePrinted := true, helperRuns := 0,
          globalThreadSetting := none } :=
  ⟨by decide, C10_argc_guard _ _ _ (by decide)⟩

end ITK
